import Mathlib

/-!
Verification of `fix-imports.py`: a tool that strips trailing `.js`
extensions from import statements in TypeScript files.

The content rewriter is Python's `re.sub` applied with two patterns
(source lines 19-27):

  rule 1: `from\s+['\"]([^'\"]*?)\.js['\"]`  ->  `from '\1'`
  rule 2: `import\s+([^'\"]*?)\s+from\s+['\"]([^'\"]*?)\.js['\"]`
          ->  `import \1 from '\2'`

Each pattern is embedded below as an explicit matcher with Python's
backtracking semantics: literal characters, greedy `\s+` (which is
deterministic whenever the following token cannot match a whitespace
character, and requires explicit backtracking after `import`, where the
lazy group that follows can itself consume whitespace), and lazy
`[^'\"]*?` groups (shortest match first).  `re.sub` scanning is the
usual leftmost, non-overlapping scan: at each position the anchored
matcher is tried; on success the replacement is emitted and scanning
resumes after the match.

Whitespace is modelled by the six ASCII whitespace characters matched by
Python's `\s`; characters are Lean `Char`.  All functions are fuel-free
or fuelled by the input length, hence executable and kernel-reducible.
-/

/-- The character class `['\"]` of the patterns. -/
def isQuote (c : Char) : Bool := c == '\'' || c == '"'

/-- Python's `\s`, restricted to the six ASCII whitespace characters. -/
def pyIsSpace (c : Char) : Bool :=
  c == ' ' || c == '\t' || c == '\n' || c == '\r' || c == '\x0b' || c == '\x0c'

/-- Does the list begin with `.js` followed by a quote character?  This is
the 4-character window `\.js['\"]` that terminates a lazy group of either
pattern. -/
def windowAt : List Char → Bool
  | a :: b :: c :: d :: _ => a == '.' && b == 'j' && c == 's' && isQuote d
  | _ => false

/-- Does some suffix of the list begin with `.js` followed by a quote?
Both patterns can only match text containing such a window. -/
def hasJsQuote : List Char → Bool
  | [] => false
  | c :: cs => windowAt (c :: cs) || hasJsQuote cs

/-- Match `\.js['\"]` at the head of the list, returning the remainder. -/
def jsTail : List Char → Option (List Char)
  | a :: b :: c :: d :: rest =>
    if a == '.' && b == 'j' && c == 's' && isQuote d then some rest else none
  | _ => none

/-- The lazy group `([^'\"]*?)` followed by `\.js['\"]`: try the
terminating window first (shortest match); otherwise consume one
non-quote character and retry.  Returns the captured group and the
remainder after the closing quote. -/
def lazyCapture : List Char → Option (List Char × List Char)
  | [] => none
  | c :: cs =>
    match jsTail (c :: cs) with
    | some rest => some ([], rest)
    | none =>
      if isQuote c then none
      else (lazyCapture cs).map fun gr => (c :: gr.1, gr.2)

/-- Anchored matcher for rule 1, `from\s+['\"]([^'\"]*?)\.js['\"]`:
the literal `from`, one or more whitespace characters (greedy; the next
token is a quote, which is not whitespace, so the maximal run is the only
candidate), a quote, then the lazy group.  Returns the captured group
and the remainder after the match. -/
def matchPat1 : List Char → Option (List Char × List Char)
  | a :: b :: c :: d :: rest =>
    if a == 'f' && b == 'r' && c == 'o' && d == 'm' then
      match rest with
      | e :: es =>
        if pyIsSpace e then
          match List.dropWhile pyIsSpace es with
          | q :: cs => if isQuote q then lazyCapture cs else none
          | [] => none
        else none
      | [] => none
    else none
  | _ => none

/-- One `re.sub` pass with rule 1 (fuelled by the input length; each
step either copies one character or consumes a whole match, so the
length of the input is always enough fuel). -/
def sub1Fuel : Nat → List Char → List Char
  | 0, l => l
  | _ + 1, [] => []
  | n + 1, c :: cs =>
    match matchPat1 (c :: cs) with
    | some (g, rest) => "from '".data ++ g ++ '\'' :: sub1Fuel n rest
    | none => c :: sub1Fuel n cs

/-- `re.sub` with rule 1: replacement template `from '\1'`. -/
def sub1 (l : List Char) : List Char := sub1Fuel l.length l

/-- After rule 2's first group: `\s+from\s+['\"]([^'\"]*?)\.js['\"]`.
Both `\s+` are deterministic (followed by a non-whitespace token).
Returns the second captured group and the remainder. -/
def tryAfterG1 : List Char → Option (List Char × List Char)
  | [] => none
  | c :: cs =>
    if pyIsSpace c then
      match List.dropWhile pyIsSpace cs with
      | d1 :: d2 :: d3 :: d4 :: ds =>
        if d1 == 'f' && d2 == 'r' && d3 == 'o' && d4 == 'm' then
          match ds with
          | e :: es =>
            if pyIsSpace e then
              match List.dropWhile pyIsSpace es with
              | q :: qs => if isQuote q then lazyCapture qs else none
              | [] => none
            else none
          | [] => none
        else none
      | _ => none
    else none

/-- Rule 2's lazy first group `([^'\"]*?)` followed by the rest of the
pattern: try the continuation first (shortest match), else consume one
non-quote character and retry. -/
def tryG1 : List Char → Option (List Char × List Char × List Char)
  | [] => (tryAfterG1 []).map fun r => ([], r.1, r.2)
  | c :: cs =>
    match tryAfterG1 (c :: cs) with
    | some r => some ([], r.1, r.2)
    | none =>
      if isQuote c then none
      else (tryG1 cs).map fun r => (c :: r.1, r.2.1, r.2.2)

/-- Backtracking over the length of rule 2's first `\s+` (greedy:
longest run first, down to one character).  The first group that follows
may itself consume whitespace, so shorter runs must be retried when the
continuation fails. -/
def tryW1 : Nat → List Char → Option (List Char × List Char × List Char)
  | 0, _ => none
  | i + 1, cs =>
    match tryG1 (cs.drop (i + 1)) with
    | some r => some r
    | none => tryW1 i cs

/-- Anchored matcher for rule 2,
`import\s+([^'\"]*?)\s+from\s+['\"]([^'\"]*?)\.js['\"]`. -/
def matchPat2 : List Char → Option (List Char × List Char × List Char)
  | a1 :: a2 :: a3 :: a4 :: a5 :: a6 :: cs =>
    if a1 == 'i' && a2 == 'm' && a3 == 'p' && a4 == 'o' && a5 == 'r' && a6 == 't' then
      tryW1 (cs.takeWhile pyIsSpace).length cs
    else none
  | _ => none

/-- One `re.sub` pass with rule 2 (fuelled by the input length). -/
def sub2Fuel : Nat → List Char → List Char
  | 0, l => l
  | _ + 1, [] => []
  | n + 1, c :: cs =>
    match matchPat2 (c :: cs) with
    | some (g1, g2, rest) =>
      "import ".data ++ g1 ++ " from '".data ++ g2 ++ '\'' :: sub2Fuel n rest
    | none => c :: sub2Fuel n cs

/-- `re.sub` with rule 2: replacement template `import \1 from '\2'`. -/
def sub2 (l : List Char) : List Char := sub2Fuel l.length l

/-- The content rewriter of `fix_imports_in_file` (lines 19-27): rule 1
then rule 2, each over the whole current content. -/
def rewrite (l : List Char) : List Char := sub2 (sub1 l)

/-- Outcome of reading a file (line 13-14): the decoded content, or the
message of the raised exception. -/
inductive ReadResult
  | ok (content : List Char)
  | err (msg : String)
deriving DecidableEq

/-- Outcome of writing a file (lines 31-32). -/
inductive WriteResult
  | ok
  | err (msg : String)
deriving DecidableEq

/-- Observable effects of a run: file reads, file writes (with the
content written), and console output. -/
inductive Event
  | readF (p : String)
  | writeF (p : String) (content : List Char)
  | msg (s : String)
deriving DecidableEq

/-- A discovered file: its path and the behaviour of the two I/O
operations the program may perform on it. -/
structure FileModel where
  path : String
  read : ReadResult
  write : WriteResult

/-- `fix_imports_in_file` (lines 10-40): read the file, apply both
substitution rules, and write the file back only if the content changed.
Any read or write failure is caught, reported, and yields `False`.
Returns the `True`/`False` result together with the trace of effects. -/
def fix_imports_in_file (f : FileModel) : Bool × List Event :=
  match f.read with
  | ReadResult.err e =>
    (false, [Event.readF f.path,
             Event.msg ("Error processing " ++ f.path ++ ": " ++ e)])
  | ReadResult.ok content =>
    let newContent := rewrite content
    if newContent ≠ content then
      match f.write with
      | WriteResult.ok =>
        (true, [Event.readF f.path, Event.writeF f.path newContent,
                Event.msg ("Fixed imports in: " ++ f.path)])
      | WriteResult.err e =>
        (false, [Event.readF f.path, Event.writeF f.path newContent,
                 Event.msg ("Error processing " ++ f.path ++ ": " ++ e)])
    else (false, [Event.readF f.path])

/-- The driver loop of `main` (lines 57-60): process each file in turn,
counting the files reported fixed and accumulating the effect trace. -/
def processFiles : List FileModel → Nat × List Event
  | [] => (0, [])
  | f :: fs =>
    let r := fix_imports_in_file f
    let rest := processFiles fs
    ((if r.1 then 1 else 0) + rest.1, r.2 ++ rest.2)

/-- The hard-coded traversal root (line 44). -/
def projectRoot : String := "/home/ty/Repositories/ai_workspace/esaf-framework/src"

namespace FixImports

/-- `main` (lines 42-62): if the root does not exist, report and stop;
otherwise report the number of discovered files, process each, and
report the fixed count. -/
def main (rootExists : Bool) (files : List FileModel) : List Event :=
  if rootExists then
    Event.msg ("Found " ++ toString files.length ++ " TypeScript files") ::
      ((processFiles files).2 ++
        [Event.msg ("Fixed imports in " ++ toString (processFiles files).1 ++ " files")])
  else
    [Event.msg ("Project root not found: " ++ projectRoot)]

end FixImports

/-! ### Basic facts about the matchers -/

theorem isQuote_cases {q : Char} (h : isQuote q = true) : q = '\'' ∨ q = '"' := by
  simpa [isQuote] using h

theorem isQuote_not_space {q : Char} (h : isQuote q = true) : pyIsSpace q = false := by
  rcases isQuote_cases h with rfl | rfl <;> decide

theorem jsTail_some_shape {l r : List Char} (h : jsTail l = some r) :
    ∃ qc, l = '.' :: 'j' :: 's' :: qc :: r ∧ isQuote qc = true := by
  rcases l with _ | ⟨a, _ | ⟨b, _ | ⟨c, _ | ⟨d, rest⟩⟩⟩⟩
  · simp [jsTail] at h
  · simp [jsTail] at h
  · simp [jsTail] at h
  · simp [jsTail] at h
  · simp only [jsTail] at h
    by_cases hcond : (a == '.' && b == 'j' && c == 's' && isQuote d) = true
    · rw [if_pos hcond] at h
      rw [Option.some.injEq] at h
      subst h
      rw [Bool.and_eq_true, Bool.and_eq_true, Bool.and_eq_true] at hcond
      obtain ⟨⟨⟨ha, hb⟩, hc2⟩, hd⟩ := hcond
      rw [beq_iff_eq] at ha hb hc2
      subst ha; subst hb; subst hc2
      exact ⟨d, rfl, hd⟩
    · rw [if_neg hcond] at h
      exact absurd h (by simp)

theorem jsTail_windowAt {l r : List Char} (h : jsTail l = some r) : windowAt l = true := by
  obtain ⟨qc, rfl, hq⟩ := jsTail_some_shape h
  simp [windowAt, hq]

theorem lazyCapture_length :
    ∀ {l g r : List Char}, lazyCapture l = some (g, r) →
      l.length = g.length + 4 + r.length := by
  intro l
  induction l with
  | nil => intro g r h; simp [lazyCapture] at h
  | cons c cs ih =>
    intro g r h
    rw [lazyCapture] at h
    cases hj : jsTail (c :: cs) with
    | some rest =>
      rw [hj] at h
      simp only [Option.some.injEq, Prod.mk.injEq] at h
      obtain ⟨rfl, rfl⟩ := h
      obtain ⟨qc, heq, -⟩ := jsTail_some_shape hj
      have := congrArg List.length heq
      simp at this ⊢
      omega
    | none =>
      rw [hj] at h
      by_cases hq : isQuote c
      · simp [hq] at h
      · simp only [hq, if_false, Option.map_eq_some', Bool.false_eq_true] at h
        obtain ⟨⟨g', r'⟩, hgr, h2⟩ := h
        simp only [Prod.mk.injEq] at h2
        obtain ⟨rfl, rfl⟩ := h2
        have := ih hgr
        simp [List.length_cons, this]
        omega

theorem lazyCapture_hasJs :
    ∀ {l : List Char} {x}, lazyCapture l = some x → hasJsQuote l = true := by
  intro l
  induction l with
  | nil => intro x h; simp [lazyCapture] at h
  | cons c cs ih =>
    intro x h
    rw [lazyCapture] at h
    cases hj : jsTail (c :: cs) with
    | some rest =>
      have := jsTail_windowAt hj
      simp [hasJsQuote, this]
    | none =>
      rw [hj] at h
      by_cases hq : isQuote c
      · simp [hq] at h
      · simp only [hq, if_false, Option.map_eq_some', Bool.false_eq_true] at h
        obtain ⟨gr, hgr, -⟩ := h
        have := ih hgr
        simp [hasJsQuote, this]

theorem hasJsQuote_suffix {t l : List Char} (h : t <:+ l) (ht : hasJsQuote t = true) :
    hasJsQuote l = true := by
  obtain ⟨s, rfl⟩ := h
  induction s with
  | nil => simpa using ht
  | cons a s ih => simp [hasJsQuote, List.cons_append, ih]

theorem windowAt_false_of_head {a : Char} {l : List Char} (h : (a == '.') = false) :
    windowAt (a :: l) = false := by
  rcases l with _ | ⟨b, _ | ⟨c, _ | ⟨d, l'⟩⟩⟩ <;> simp [windowAt, h]

theorem windowAt_false_of_fourth {a b c d : Char} {l : List Char}
    (h : isQuote d = false) : windowAt (a :: b :: c :: d :: l) = false := by
  simp [windowAt, h]

theorem hasJsQuote_cons {c : Char} {cs : List Char} (h : hasJsQuote cs = true) :
    hasJsQuote (c :: cs) = true := by
  simp [hasJsQuote, h]

theorem suffix_cons_of {t l : List Char} (a : Char) (h : t <:+ l) : t <:+ a :: l :=
  h.trans (List.suffix_cons a l)

/-- Inversion for the rule-1 matcher. -/
theorem matchPat1_some {l : List Char} {g r : List Char}
    (h : matchPat1 l = some (g, r)) :
    ∃ (e : Char) (es : List Char) (q : Char) (cs : List Char),
      l = 'f' :: 'r' :: 'o' :: 'm' :: e :: es ∧ pyIsSpace e = true ∧
      List.dropWhile pyIsSpace es = q :: cs ∧ isQuote q = true ∧
      lazyCapture cs = some (g, r) := by
  rcases l with _ | ⟨a, _ | ⟨b, _ | ⟨c, _ | ⟨d, rest⟩⟩⟩⟩
  · simp [matchPat1] at h
  · simp [matchPat1] at h
  · simp [matchPat1] at h
  · simp [matchPat1] at h
  · simp only [matchPat1] at h
    by_cases hcond : (a == 'f' && b == 'r' && c == 'o' && d == 'm') = true
    · rw [if_pos hcond] at h
      rw [Bool.and_eq_true, Bool.and_eq_true, Bool.and_eq_true] at hcond
      obtain ⟨⟨⟨ha, hb⟩, hc2⟩, hd⟩ := hcond
      rw [beq_iff_eq] at ha hb hc2 hd
      subst ha; subst hb; subst hc2; subst hd
      rcases rest with _ | ⟨e, es⟩
      · simp at h
      · dsimp only at h
        by_cases hsp : pyIsSpace e = true
        · rw [if_pos hsp] at h
          cases hdw : List.dropWhile pyIsSpace es with
          | nil => rw [hdw] at h; simp at h
          | cons q cs =>
            rw [hdw] at h
            dsimp only at h
            by_cases hq : isQuote q = true
            · rw [if_pos hq] at h
              exact ⟨e, es, q, cs, rfl, hsp, hdw, hq, h⟩
            · rw [if_neg hq] at h; exact absurd h (by simp)
        · rw [if_neg hsp] at h; exact absurd h (by simp)
    · rw [if_neg hcond] at h; exact absurd h (by simp)

theorem matchPat1_length {l g r : List Char} (h : matchPat1 l = some (g, r)) :
    g.length + 10 + r.length ≤ l.length := by
  obtain ⟨e, es, q, cs, rfl, -, hdw, -, hlc⟩ := matchPat1_some h
  have h1 : (q :: cs).length ≤ es.length := by
    rw [← hdw]; exact (List.dropWhile_suffix pyIsSpace).length_le
  have h2 := lazyCapture_length hlc
  simp at h1 ⊢
  omega

theorem matchPat1_hasJs {l : List Char} {x} (h : matchPat1 l = some x) :
    hasJsQuote l = true := by
  obtain ⟨g, r⟩ := x
  obtain ⟨e, es, q, cs, rfl, -, hdw, -, hlc⟩ := matchPat1_some h
  have hsuf : cs <:+ es := by
    have : q :: cs <:+ es := by rw [← hdw]; exact List.dropWhile_suffix pyIsSpace
    exact (List.suffix_cons q cs).trans this
  have := hasJsQuote_suffix hsuf (lazyCapture_hasJs hlc)
  exact hasJsQuote_cons <| hasJsQuote_cons <| hasJsQuote_cons <|
    hasJsQuote_cons <| hasJsQuote_cons this

theorem matchPat1_from_head {l : List Char} {x} (h : matchPat1 l = some x) :
    ∃ rest, l = 'f' :: 'r' :: 'o' :: 'm' :: rest := by
  obtain ⟨g, r⟩ := x
  obtain ⟨e, es, q, cs, rfl, -⟩ := matchPat1_some h
  exact ⟨e :: es, rfl⟩

/-- Inversion for the continuation of rule 2 after its first group. -/
theorem tryAfterG1_some {l : List Char} {g2 r : List Char}
    (h : tryAfterG1 l = some (g2, r)) :
    ∃ qs : List Char, qs <:+ l ∧ lazyCapture qs = some (g2, r) ∧
      qs.length + 7 ≤ l.length := by
  rcases l with _ | ⟨c, cs⟩
  · simp [tryAfterG1] at h
  · simp only [tryAfterG1] at h
    by_cases hsp : pyIsSpace c = true
    · rw [if_pos hsp] at h
      cases hdw : List.dropWhile pyIsSpace cs with
      | nil => rw [hdw] at h; simp at h
      | cons d1 dtail =>
        rw [hdw] at h
        rcases dtail with _ | ⟨d2, _ | ⟨d3, _ | ⟨d4, ds⟩⟩⟩
        · simp at h
        · simp at h
        · simp at h
        · dsimp only at h
          by_cases hfrom : (d1 == 'f' && d2 == 'r' && d3 == 'o' && d4 == 'm') = true
          · rw [if_pos hfrom] at h
            rcases ds with _ | ⟨e, es⟩
            · simp at h
            · dsimp only at h
              by_cases hsp2 : pyIsSpace e = true
              · rw [if_pos hsp2] at h
                cases hdw2 : List.dropWhile pyIsSpace es with
                | nil => rw [hdw2] at h; simp at h
                | cons q qs =>
                  rw [hdw2] at h
                  dsimp only at h
                  by_cases hq : isQuote q = true
                  · rw [if_pos hq] at h
                    refine ⟨qs, ?_, h, ?_⟩
                    · have h1 : qs <:+ es := by
                        have : q :: qs <:+ es := by
                          rw [← hdw2]; exact List.dropWhile_suffix pyIsSpace
                        exact (List.suffix_cons q qs).trans this
                      have h2 : es <:+ cs := by
                        have h3 : d1 :: d2 :: d3 :: d4 :: e :: es <:+ cs := by
                          rw [← hdw]; exact List.dropWhile_suffix pyIsSpace
                        exact ((List.suffix_cons e es).trans
                          ((List.suffix_cons d4 _).trans
                            ((List.suffix_cons d3 _).trans
                              ((List.suffix_cons d2 _).trans
                                ((List.suffix_cons d1 _).trans h3))))).trans List.suffix_rfl
                      exact suffix_cons_of c (h1.trans h2)
                    · have h1 : (q :: qs).length ≤ es.length := by
                        rw [← hdw2]
                        exact (List.dropWhile_suffix pyIsSpace).length_le
                      have h2 : (d1 :: d2 :: d3 :: d4 :: e :: es).length ≤ cs.length := by
                        rw [← hdw]
                        exact (List.dropWhile_suffix pyIsSpace).length_le
                      simp at h1 h2 ⊢
                      omega
                  · rw [if_neg hq] at h; exact absurd h (by simp)
              · rw [if_neg hsp2] at h; exact absurd h (by simp)
          · rw [if_neg hfrom] at h; exact absurd h (by simp)
    · rw [if_neg hsp] at h; exact absurd h (by simp)

theorem tryAfterG1_length {l g2 r : List Char} (h : tryAfterG1 l = some (g2, r)) :
    g2.length + 11 + r.length ≤ l.length := by
  obtain ⟨qs, -, hlc, hlen⟩ := tryAfterG1_some h
  have := lazyCapture_length hlc
  omega

theorem tryAfterG1_hasJs {l : List Char} {x} (h : tryAfterG1 l = some x) :
    hasJsQuote l = true := by
  obtain ⟨g2, r⟩ := x
  obtain ⟨qs, hsuf, hlc, -⟩ := tryAfterG1_some h
  exact hasJsQuote_suffix hsuf (lazyCapture_hasJs hlc)

theorem tryG1_some :
    ∀ {l g1 g2 r : List Char}, tryG1 l = some (g1, g2, r) →
      g1.length + g2.length + 11 + r.length ≤ l.length ∧ hasJsQuote l = true := by
  intro l
  induction l with
  | nil => intro g1 g2 r h; simp [tryG1, tryAfterG1] at h
  | cons c cs ih =>
    intro g1 g2 r h
    rw [tryG1] at h
    cases ht : tryAfterG1 (c :: cs) with
    | some p =>
      rw [ht] at h
      simp only [Option.some.injEq, Prod.mk.injEq] at h
      obtain ⟨rfl, rfl, rfl⟩ := h
      obtain ⟨p1, p2⟩ := p
      have := tryAfterG1_length ht
      exact ⟨by simpa using this, tryAfterG1_hasJs ht⟩
    | none =>
      rw [ht] at h
      by_cases hq : isQuote c
      · simp [hq] at h
      · simp only [hq, if_false, Option.map_eq_some', Bool.false_eq_true] at h
        obtain ⟨⟨p1, p2, p3⟩, hp, h2⟩ := h
        simp only [Prod.mk.injEq] at h2
        obtain ⟨rfl, rfl, rfl⟩ := h2
        obtain ⟨hlen, hjs⟩ := ih hp
        refine ⟨by simp at hlen ⊢; omega, hasJsQuote_cons hjs⟩

theorem tryW1_some :
    ∀ {i : Nat} {cs g1 g2 r : List Char}, tryW1 i cs = some (g1, g2, r) →
      g1.length + g2.length + 12 + r.length ≤ cs.length ∧ hasJsQuote cs = true := by
  intro i
  induction i with
  | zero => intro cs g1 g2 r h; simp [tryW1] at h
  | succ i ih =>
    intro cs g1 g2 r h
    rw [tryW1] at h
    cases ht : tryG1 (cs.drop (i + 1)) with
    | some p =>
      rw [ht] at h
      obtain ⟨p1, p2, p3⟩ := p
      simp only [Option.some.injEq, Prod.mk.injEq] at h
      obtain ⟨rfl, rfl, rfl⟩ := h
      obtain ⟨hlen, hjs⟩ := tryG1_some ht
      constructor
      · have hd : (cs.drop (i + 1)).length = cs.length - (i + 1) := by simp
        omega
      · exact hasJsQuote_suffix (List.drop_suffix (i + 1) cs) hjs
    | none =>
      rw [ht] at h
      exact ih h

theorem matchPat2_some {l g1 g2 r : List Char} (h : matchPat2 l = some (g1, g2, r)) :
    g1.length + g2.length + 18 + r.length ≤ l.length ∧ hasJsQuote l = true := by
  rcases l with _ | ⟨a1, _ | ⟨a2, _ | ⟨a3, _ | ⟨a4, _ | ⟨a5, _ | ⟨a6, cs⟩⟩⟩⟩⟩⟩
  · simp [matchPat2] at h
  · simp [matchPat2] at h
  · simp [matchPat2] at h
  · simp [matchPat2] at h
  · simp [matchPat2] at h
  · simp [matchPat2] at h
  · simp only [matchPat2] at h
    by_cases hcond :
        (a1 == 'i' && a2 == 'm' && a3 == 'p' && a4 == 'o' && a5 == 'r' && a6 == 't') = true
    · rw [if_pos hcond] at h
      obtain ⟨hlen, hjs⟩ := tryW1_some h
      constructor
      · simp at hlen ⊢; omega
      · exact hasJsQuote_cons <| hasJsQuote_cons <| hasJsQuote_cons <|
          hasJsQuote_cons <| hasJsQuote_cons <| hasJsQuote_cons hjs
    · rw [if_neg hcond] at h; exact absurd h (by simp)

/-! ### Unfolding and length lemmas for the substitution passes -/

theorem sub1Fuel_congr :
    ∀ {n m : Nat} {l : List Char}, l.length ≤ n → l.length ≤ m →
      sub1Fuel n l = sub1Fuel m l := by
  intro n
  induction n with
  | zero =>
    intro m l hn hm
    have : l = [] := List.length_eq_zero.mp (Nat.le_zero.mp hn)
    subst this
    cases m <;> rfl
  | succ n ih =>
    intro m l hn hm
    cases l with
    | nil => cases m <;> rfl
    | cons c cs =>
      cases m with
      | zero => simp at hm
      | succ m' =>
        simp only [sub1Fuel]
        cases hmt : matchPat1 (c :: cs) with
        | some p =>
          obtain ⟨g, rest⟩ := p
          have hlen := matchPat1_length hmt
          simp only [List.length_cons] at hn hm hlen
          have : sub1Fuel n rest = sub1Fuel m' rest := ih (by omega) (by omega)
          dsimp only
          rw [this]
        | none =>
          simp only [List.length_cons] at hn hm
          have : sub1Fuel n cs = sub1Fuel m' cs := ih (by omega) (by omega)
          dsimp only
          rw [this]

theorem sub1_match {l g rest : List Char} (h : matchPat1 l = some (g, rest)) :
    sub1 l = "from '".data ++ g ++ '\'' :: sub1 rest := by
  rcases l with _ | ⟨c, cs⟩
  · simp [matchPat1] at h
  · have hlen := matchPat1_length h
    simp only [List.length_cons] at hlen
    unfold sub1
    simp only [List.length_cons, sub1Fuel]
    rw [h]
    dsimp only
    have : sub1Fuel cs.length rest = sub1Fuel rest.length rest :=
      sub1Fuel_congr (by omega) le_rfl
    rw [this]

theorem sub1_cons_none {c : Char} {cs : List Char} (h : matchPat1 (c :: cs) = none) :
    sub1 (c :: cs) = c :: sub1 cs := by
  unfold sub1
  simp only [List.length_cons, sub1Fuel]
  rw [h]

theorem sub2Fuel_congr :
    ∀ {n m : Nat} {l : List Char}, l.length ≤ n → l.length ≤ m →
      sub2Fuel n l = sub2Fuel m l := by
  intro n
  induction n with
  | zero =>
    intro m l hn hm
    have : l = [] := List.length_eq_zero.mp (Nat.le_zero.mp hn)
    subst this
    cases m <;> rfl
  | succ n ih =>
    intro m l hn hm
    cases l with
    | nil => cases m <;> rfl
    | cons c cs =>
      cases m with
      | zero => simp at hm
      | succ m' =>
        simp only [sub2Fuel]
        cases hmt : matchPat2 (c :: cs) with
        | some p =>
          obtain ⟨g1, g2, rest⟩ := p
          have hlen := (matchPat2_some hmt).1
          simp only [List.length_cons] at hn hm hlen
          have : sub2Fuel n rest = sub2Fuel m' rest := ih (by omega) (by omega)
          dsimp only
          rw [this]
        | none =>
          simp only [List.length_cons] at hn hm
          have : sub2Fuel n cs = sub2Fuel m' cs := ih (by omega) (by omega)
          dsimp only
          rw [this]

theorem sub2_match {l g1 g2 rest : List Char} (h : matchPat2 l = some (g1, g2, rest)) :
    sub2 l = "import ".data ++ g1 ++ " from '".data ++ g2 ++ '\'' :: sub2 rest := by
  rcases l with _ | ⟨c, cs⟩
  · simp [matchPat2] at h
  · have hlen := (matchPat2_some h).1
    simp only [List.length_cons] at hlen
    unfold sub2
    simp only [List.length_cons, sub2Fuel]
    rw [h]
    dsimp only
    have : sub2Fuel cs.length rest = sub2Fuel rest.length rest :=
      sub2Fuel_congr (by omega) le_rfl
    rw [this]

theorem sub2_cons_none {c : Char} {cs : List Char} (h : matchPat2 (c :: cs) = none) :
    sub2 (c :: cs) = c :: sub2 cs := by
  unfold sub2
  simp only [List.length_cons, sub2Fuel]
  rw [h]

theorem sub1Fuel_length_le :
    ∀ {n : Nat} {l : List Char}, l.length ≤ n → (sub1Fuel n l).length ≤ l.length := by
  intro n
  induction n with
  | zero => intro l h; exact le_rfl
  | succ n ih =>
    intro l h
    cases l with
    | nil => exact le_rfl
    | cons c cs =>
      simp only [sub1Fuel]
      cases hmt : matchPat1 (c :: cs) with
      | some p =>
        obtain ⟨g, rest⟩ := p
        have hlen := matchPat1_length hmt
        simp only [List.length_cons] at h hlen ⊢
        have h1 : rest.length ≤ n := by omega
        have := ih h1
        have hfd : ("from '".data).length = 6 := rfl
        simp [List.length_append, hfd]
        omega
      | none =>
        simp only [List.length_cons] at h ⊢
        have := @ih cs (by omega)
        omega

theorem sub1Fuel_eq_or_lt :
    ∀ {n : Nat} {l : List Char}, l.length ≤ n →
      sub1Fuel n l = l ∨ (sub1Fuel n l).length < l.length := by
  intro n
  induction n with
  | zero => intro l h; exact Or.inl rfl
  | succ n ih =>
    intro l h
    cases l with
    | nil => exact Or.inl rfl
    | cons c cs =>
      simp only [sub1Fuel]
      cases hmt : matchPat1 (c :: cs) with
      | some p =>
        obtain ⟨g, rest⟩ := p
        right
        have hlen := matchPat1_length hmt
        simp only [List.length_cons] at h hlen ⊢
        have h1 : rest.length ≤ n := by omega
        have h2 := sub1Fuel_length_le h1
        have hfd : ("from '".data).length = 6 := rfl
        simp [List.length_append, hfd]
        omega
      | none =>
        simp only [List.length_cons] at h
        rcases @ih cs (by omega) with h1 | h1
        · exact Or.inl (by rw [h1])
        · right; simp only [List.length_cons]; omega

theorem sub2Fuel_length_le :
    ∀ {n : Nat} {l : List Char}, l.length ≤ n → (sub2Fuel n l).length ≤ l.length := by
  intro n
  induction n with
  | zero => intro l h; exact le_rfl
  | succ n ih =>
    intro l h
    cases l with
    | nil => exact le_rfl
    | cons c cs =>
      simp only [sub2Fuel]
      cases hmt : matchPat2 (c :: cs) with
      | some p =>
        obtain ⟨g1, g2, rest⟩ := p
        have hlen := (matchPat2_some hmt).1
        simp only [List.length_cons] at h hlen ⊢
        have h1 : rest.length ≤ n := by omega
        have := ih h1
        have hfd1 : ("import ".data).length = 7 := rfl
        have hfd2 : (" from '".data).length = 7 := rfl
        simp [List.length_append, hfd1, hfd2]
        omega
      | none =>
        simp only [List.length_cons] at h ⊢
        have := @ih cs (by omega)
        omega

theorem sub2Fuel_eq_or_lt :
    ∀ {n : Nat} {l : List Char}, l.length ≤ n →
      sub2Fuel n l = l ∨ (sub2Fuel n l).length < l.length := by
  intro n
  induction n with
  | zero => intro l h; exact Or.inl rfl
  | succ n ih =>
    intro l h
    cases l with
    | nil => exact Or.inl rfl
    | cons c cs =>
      simp only [sub2Fuel]
      cases hmt : matchPat2 (c :: cs) with
      | some p =>
        obtain ⟨g1, g2, rest⟩ := p
        right
        have hlen := (matchPat2_some hmt).1
        simp only [List.length_cons] at h hlen ⊢
        have h1 : rest.length ≤ n := by omega
        have h2 := sub2Fuel_length_le h1
        have hfd1 : ("import ".data).length = 7 := rfl
        have hfd2 : (" from '".data).length = 7 := rfl
        simp [List.length_append, hfd1, hfd2]
        omega
      | none =>
        simp only [List.length_cons] at h
        rcases @ih cs (by omega) with h1 | h1
        · exact Or.inl (by rw [h1])
        · right; simp only [List.length_cons]; omega

theorem sub1_length_le (l : List Char) : (sub1 l).length ≤ l.length :=
  sub1Fuel_length_le le_rfl

theorem sub2_length_le (l : List Char) : (sub2 l).length ≤ l.length :=
  sub2Fuel_length_le le_rfl

theorem sub1_eq_or_lt (l : List Char) : sub1 l = l ∨ (sub1 l).length < l.length :=
  sub1Fuel_eq_or_lt le_rfl

theorem sub2_eq_or_lt (l : List Char) : sub2 l = l ∨ (sub2 l).length < l.length :=
  sub2Fuel_eq_or_lt le_rfl

theorem rewrite_length_le (l : List Char) : (rewrite l).length ≤ l.length :=
  le_trans (sub2_length_le _) (sub1_length_le _)

theorem rewrite_eq_or_lt (l : List Char) :
    rewrite l = l ∨ (rewrite l).length < l.length := by
  unfold rewrite
  rcases sub1_eq_or_lt l with h1 | h1
  · rw [h1]; exact sub2_eq_or_lt l
  · exact Or.inr (lt_of_le_of_lt (sub2_length_le _) h1)

/-! ### When a pass leaves the content unchanged -/

theorem sub1_id_of_no_match :
    ∀ {l : List Char}, (∀ t ∈ l.tails, matchPat1 t = none) → sub1 l = l := by
  intro l
  induction l with
  | nil => intro h; rfl
  | cons c cs ih =>
    intro h
    have h0 : matchPat1 (c :: cs) = none :=
      h _ ((List.mem_tails _ _).mpr List.suffix_rfl)
    rw [sub1_cons_none h0,
      ih (fun t ht => h t (by rw [List.tails_cons]; exact List.mem_cons_of_mem _ ht))]

theorem sub2_id_of_no_match :
    ∀ {l : List Char}, (∀ t ∈ l.tails, matchPat2 t = none) → sub2 l = l := by
  intro l
  induction l with
  | nil => intro h; rfl
  | cons c cs ih =>
    intro h
    have h0 : matchPat2 (c :: cs) = none :=
      h _ ((List.mem_tails _ _).mpr List.suffix_rfl)
    rw [sub2_cons_none h0,
      ih (fun t ht => h t (by rw [List.tails_cons]; exact List.mem_cons_of_mem _ ht))]

theorem matchPat2_hasJs {l : List Char} {x} (h : matchPat2 l = some x) :
    hasJsQuote l = true := by
  obtain ⟨g1, g2, r⟩ := x
  exact (matchPat2_some h).2

theorem sub1_id_of_no_window {l : List Char} (h : hasJsQuote l = false) : sub1 l = l := by
  apply sub1_id_of_no_match
  intro t ht
  cases hmt : matchPat1 t with
  | none => rfl
  | some x =>
    have hs := hasJsQuote_suffix ((List.mem_tails _ _).mp ht) (matchPat1_hasJs hmt)
    rw [h] at hs
    exact absurd hs (by simp)

theorem sub2_id_of_no_window {l : List Char} (h : hasJsQuote l = false) : sub2 l = l := by
  apply sub2_id_of_no_match
  intro t ht
  cases hmt : matchPat2 t with
  | none => rfl
  | some x =>
    have hs := hasJsQuote_suffix ((List.mem_tails _ _).mp ht) (matchPat2_hasJs hmt)
    rw [h] at hs
    exact absurd hs (by simp)

theorem rewrite_id_of_no_window {l : List Char} (h : hasJsQuote l = false) :
    rewrite l = l := by
  unfold rewrite
  rw [sub1_id_of_no_window h, sub2_id_of_no_window h]

/-! ### Composing window-freeness over appends -/

theorem hasJsQuote_append :
    ∀ {u w : List Char}, (∀ t ∈ u.tails, t ≠ [] → windowAt (t ++ w) = false) →
      hasJsQuote w = false → hasJsQuote (u ++ w) = false := by
  intro u
  induction u with
  | nil => intro w h1 h2; simpa using h2
  | cons c u ih =>
    intro w h1 h2
    have hw : windowAt ((c :: u) ++ w) = false :=
      h1 (c :: u) ((List.mem_tails _ _).mpr List.suffix_rfl) (by simp)
    have hrest : hasJsQuote (u ++ w) = false :=
      ih (fun t ht hne =>
        h1 t (by rw [List.tails_cons]; exact List.mem_cons_of_mem _ ht) hne) h2
    rw [List.cons_append] at hw ⊢
    rw [hasJsQuote]
    simp [hw, hrest]

theorem suffix_suffix_of_le {t s l : List Char} (ht : t <:+ l) (hs : s <:+ l)
    (hle : t.length ≤ s.length) : t <:+ s := by
  have h1 : s.length ≤ l.length := hs.length_le
  have h2 : t.length ≤ l.length := ht.length_le
  have et : t = List.drop (l.length - t.length) l := List.suffix_iff_eq_drop.mp ht
  have es : s = List.drop (l.length - s.length) l := List.suffix_iff_eq_drop.mp hs
  have key : List.drop (s.length - t.length) s = t := by
    conv_lhs => rw [es]
    rw [List.drop_drop, List.length_drop]
    have harith : l.length - s.length + (l.length - (l.length - s.length) - t.length)
        = l.length - t.length := by omega
    rw [harith, ← et]
  refine ⟨List.take (s.length - t.length) s, ?_⟩
  conv_rhs => rw [← List.take_append_drop (s.length - t.length) s]
  rw [key]

theorem hasJsQuote_val_quote {v : List Char} (q' : Char)
    (hv : ∀ c ∈ v, isQuote c = false) (hs : ¬ ['.', 'j', 's'] <:+ v) :
    hasJsQuote (v ++ [q']) = false := by
  apply hasJsQuote_append
  · intro t ht hne
    have htv : t <:+ v := (List.mem_tails _ _).mp ht
    rcases t with _ | ⟨a, _ | ⟨b, _ | ⟨c, _ | ⟨d, t'⟩⟩⟩⟩
    · exact absurd rfl hne
    · rfl
    · rfl
    · by_cases hw : windowAt ([a, b, c] ++ [q']) = true
      · simp only [List.cons_append, List.nil_append, windowAt, Bool.and_eq_true,
          beq_iff_eq] at hw
        obtain ⟨⟨⟨ha, hb⟩, hc⟩, -⟩ := hw
        subst ha; subst hb; subst hc
        exact absurd htv hs
      · simpa using hw
    · have hd : d ∈ v := htv.sublist.subset (by simp)
      have hdq : isQuote d = false := hv d hd
      simp [windowAt, hdq]
  · simp [hasJsQuote, windowAt]

/-! ### A complete `from`-clause occurrence -/

theorem dropWhile_all_append {ws : List Char} {a : Char} {l : List Char}
    (hws : ∀ c ∈ ws, pyIsSpace c = true) (ha : pyIsSpace a = false) :
    List.dropWhile pyIsSpace (ws ++ a :: l) = a :: l := by
  induction ws with
  | nil => simp [List.dropWhile_cons, ha]
  | cons w ws ih =>
    have hw : pyIsSpace w = true := hws w (by simp)
    simp [List.dropWhile_cons, hw, ih (fun c hc => hws c (by simp [hc]))]

theorem lazyCapture_complete :
    ∀ {g : List Char} {q' : Char}, (∀ c ∈ g, isQuote c = false) → isQuote q' = true →
      lazyCapture (g ++ ('.' :: 'j' :: 's' :: [q'])) = some (g, []) := by
  intro g
  induction g with
  | nil =>
    intro q' hg hq
    rw [List.nil_append, lazyCapture]
    have hj : jsTail ('.' :: 'j' :: 's' :: [q']) = some [] := by
      simp [jsTail, hq]
    rw [hj]
  | cons c g ih =>
    intro q' hg hq
    rw [List.cons_append, lazyCapture]
    have hjn : jsTail (c :: (g ++ ('.' :: 'j' :: 's' :: [q']))) = none := by
      cases hj : jsTail (c :: (g ++ ('.' :: 'j' :: 's' :: [q']))) with
      | none => rfl
      | some r =>
        obtain ⟨qc, heq, hqc⟩ := jsTail_some_shape hj
        injection heq with h1 h2
        rcases g with _ | ⟨x, _ | ⟨y, _ | ⟨z, g'⟩⟩⟩
        · injection h2 with ha _; exact absurd ha (by decide)
        · injection h2 with _ h2'; injection h2' with ha _
          exact absurd ha (by decide)
        · injection h2 with _ h2'; injection h2' with _ h2''
          injection h2'' with ha _
          rw [← ha] at hqc
          exact absurd hqc (by decide)
        · injection h2 with _ h2'; injection h2' with _ h2''
          injection h2'' with hz _
          have : isQuote z = false := hg z (by simp)
          rw [hz] at this
          rw [this] at hqc
          exact absurd hqc (by simp)
    rw [hjn]
    have hcq : isQuote c = false := hg c (by simp)
    rw [if_neg (by simp [hcq])]
    rw [ih (fun x hx => hg x (by simp [hx])) hq]
    rfl

theorem matchPat1_from {ws g : List Char} {q q' : Char}
    (hws : ws ≠ []) (hsp : ∀ c ∈ ws, pyIsSpace c = true)
    (hq : isQuote q = true) (hq' : isQuote q' = true)
    (hg : ∀ c ∈ g, isQuote c = false) :
    matchPat1 ('f' :: 'r' :: 'o' :: 'm' :: (ws ++ q :: (g ++ ('.' :: 'j' :: 's' :: [q']))))
      = some (g, []) := by
  rcases ws with _ | ⟨w, ws⟩
  · exact absurd rfl hws
  · rw [List.cons_append]
    simp only [matchPat1]
    rw [if_pos (by decide), if_pos (hsp w (by simp)),
      dropWhile_all_append (fun c hc => hsp c (by simp [hc])) (isQuote_not_space hq)]
    dsimp only
    rw [if_pos hq]
    exact lazyCapture_complete hg hq'

theorem sub1_copy :
    ∀ {A B : List Char}, (∀ t ∈ A.tails, t ≠ [] → matchPat1 (t ++ B) = none) →
      sub1 (A ++ B) = A ++ sub1 B := by
  intro A
  induction A with
  | nil => intro B h; simp
  | cons a A ih =>
    intro B h
    have h0 : matchPat1 ((a :: A) ++ B) = none :=
      h (a :: A) ((List.mem_tails _ _).mpr List.suffix_rfl) (by simp)
    rw [List.cons_append] at h0 ⊢
    rw [sub1_cons_none h0,
      ih (fun t ht hne => h t (by rw [List.tails_cons]; exact List.mem_cons_of_mem _ ht) hne)]
    rfl

/-! ### Traces of the per-file operation -/

theorem fix_trace_read_err {f : FileModel} {e : String} (hr : f.read = ReadResult.err e) :
    fix_imports_in_file f =
      (false, [Event.readF f.path,
        Event.msg ("Error processing " ++ f.path ++ ": " ++ e)]) := by
  unfold fix_imports_in_file
  rw [hr]

theorem fix_trace_unchanged {f : FileModel} {c : List Char}
    (hr : f.read = ReadResult.ok c) (hch : rewrite c = c) :
    fix_imports_in_file f = (false, [Event.readF f.path]) := by
  unfold fix_imports_in_file
  rw [hr]
  dsimp only
  rw [if_neg (by simp [hch])]

theorem fix_trace_changed_ok {f : FileModel} {c : List Char}
    (hr : f.read = ReadResult.ok c) (hch : rewrite c ≠ c)
    (hw : f.write = WriteResult.ok) :
    fix_imports_in_file f =
      (true, [Event.readF f.path, Event.writeF f.path (rewrite c),
        Event.msg ("Fixed imports in: " ++ f.path)]) := by
  unfold fix_imports_in_file
  rw [hr]
  dsimp only
  rw [if_pos hch, hw]

theorem fix_trace_changed_err {f : FileModel} {c : List Char} {e : String}
    (hr : f.read = ReadResult.ok c) (hch : rewrite c ≠ c)
    (hw : f.write = WriteResult.err e) :
    fix_imports_in_file f =
      (false, [Event.readF f.path, Event.writeF f.path (rewrite c),
        Event.msg ("Error processing " ++ f.path ++ ": " ++ e)]) := by
  unfold fix_imports_in_file
  rw [hr]
  dsimp only
  rw [if_pos hch, hw]

theorem processFiles_append (xs ys : List FileModel) :
    processFiles (xs ++ ys) =
      ((processFiles xs).1 + (processFiles ys).1,
        (processFiles xs).2 ++ (processFiles ys).2) := by
  induction xs with
  | nil => simp [processFiles]
  | cons f fs ih =>
    simp [processFiles, ih, Nat.add_assoc, List.append_assoc]

theorem rewrite_iterate_fix :
    ∀ (k : Nat) (s : List Char), s.length ≤ k →
      ∃ n, n ≤ k ∧ rewrite^[n + 1] s = rewrite^[n] s := by
  intro k
  induction k with
  | zero =>
    intro s h
    have hs : s = [] := List.length_eq_zero.mp (Nat.le_zero.mp h)
    subst hs
    exact ⟨0, le_rfl, by rw [Function.iterate_one, Function.iterate_zero_apply]; rfl⟩
  | succ k ih =>
    intro s h
    rcases rewrite_eq_or_lt s with he | hlt
    · exact ⟨0, Nat.zero_le _,
        by rw [Function.iterate_one, Function.iterate_zero_apply, he]⟩
    · obtain ⟨n, hn, hfix⟩ := ih (rewrite s) (by omega)
      refine ⟨n + 1, by omega, ?_⟩
      rw [Function.iterate_succ_apply, Function.iterate_succ_apply]
      exact hfix

/-! ### The claims -/

/-- C1 counterexample: rule 1 does not preserve the quote character.  On
input `from "./foo.js"` the rewriter produces `from './foo'` with single
quotes, not the double-quoted `from "./foo"` the claim requires. -/
theorem c1_counterexample :
    rewrite ("from \"./foo.js\"".data) = "from './foo'".data ∧
    rewrite ("from \"./foo.js\"".data) ≠ "from \"./foo\"".data := by
  constructor
  · decide
  · decide

/-- C1 amended: rule 1 rewrites an occurrence of `from`, whitespace, and
a quoted string literal whose value ends in `.js` into `from`, a single
space, and the literal with the trailing `.js` stripped, re-quoted with a
single quote regardless of the original quote character. -/
theorem c1_amended (ws g : List Char) (q q' : Char)
    (hws : ws ≠ []) (hsp : ∀ c ∈ ws, pyIsSpace c = true)
    (hq : isQuote q = true) (hq' : isQuote q' = true)
    (hg : ∀ c ∈ g, isQuote c = false) :
    sub1 ('f' :: 'r' :: 'o' :: 'm' :: (ws ++ q :: (g ++ ('.' :: 'j' :: 's' :: [q']))))
      = "from '".data ++ g ++ ['\''] := by
  rw [sub1_match (matchPat1_from hws hsp hq hq' hg)]
  rfl

/-- C1 witness: the concrete double-quoted occurrence from the spec. -/
theorem c1_witness :
    ([' '] ≠ ([] : List Char)) ∧
    sub1 ('f' :: 'r' :: 'o' :: 'm' ::
        ([' '] ++ '"' :: ("./foo".data ++ ('.' :: 'j' :: 's' :: ['"']))))
      = "from '".data ++ "./foo".data ++ ['\''] :=
  ⟨by decide,
    c1_amended [' '] ("./foo".data) '"' '"' (by decide) (by decide) (by decide)
      (by decide) (by decide)⟩

/-- C3 counterexample: the rewriter is not idempotent.  On
`from 'a.js.js'` one application yields `from 'a.js'` and a second
application strips again. -/
theorem c3_counterexample :
    rewrite (rewrite ("from 'a.js.js'".data)) ≠ rewrite ("from 'a.js.js'".data) := by
  decide

/-- C3 amended: the rewriter is not idempotent in general, but every
application either returns its input unchanged or strictly shortens it,
so iterated application reaches a fixed point within `length`-many
passes. -/
theorem c3_amended (s : List Char) :
    (rewrite s = s ∨ (rewrite s).length < s.length) ∧
    ∃ n, n ≤ s.length ∧ rewrite^[n + 1] s = rewrite^[n] s :=
  ⟨rewrite_eq_or_lt s, rewrite_iterate_fix s.length s le_rfl⟩

/-- C9: the rewriter never lengthens its input, and whenever the output
differs from the input it is strictly shorter. -/
theorem c9_length_monotone (s : List Char) :
    (rewrite s).length ≤ s.length ∧ (rewrite s = s ∨ (rewrite s).length < s.length) :=
  ⟨rewrite_length_le s, rewrite_eq_or_lt s⟩

/-- C7 counterexample: when the root is missing the program prints only
the not-found line; it does not report a zero file count nor a zero
fixed count. -/
theorem c7_counterexample :
    FixImports.main false [] = [Event.msg ("Project root not found: " ++ projectRoot)] ∧
    Event.msg ("Found 0 TypeScript files") ∉ FixImports.main false [] ∧
    Event.msg ("Fixed imports in 0 files") ∉ FixImports.main false [] := by
  refine ⟨rfl, ?_, ?_⟩
  · decide
  · decide

/-- C7 amended: if the root directory does not exist the run emits
exactly the not-found report, reads and writes no file, and terminates
normally; no file-count or fixed-count line is printed. -/
theorem c7_amended (files : List FileModel) :
    FixImports.main false files = [Event.msg ("Project root not found: " ++ projectRoot)] ∧
    (∀ p, Event.readF p ∉ FixImports.main false files) ∧
    (∀ p cc, Event.writeF p cc ∉ FixImports.main false files) := by
  refine ⟨rfl, ?_, ?_⟩
  · intro p hmem
    simp [FixImports.main] at hmem
  · intro p cc hmem
    simp [FixImports.main] at hmem

/-- C8: if reading the file fails, `fix_imports_in_file` returns `False`
and no write is ever attempted on that file. -/
theorem c8_read_failure_no_write (f : FileModel) (e : String)
    (h : f.read = ReadResult.err e) :
    (fix_imports_in_file f).1 = false ∧
    (∀ p cc, Event.writeF p cc ∉ (fix_imports_in_file f).2) := by
  rw [fix_trace_read_err h]
  refine ⟨rfl, ?_⟩
  intro p cc hmem
  simp at hmem

/-- C8 witness. -/
theorem c8_witness :
    (fix_imports_in_file
        { path := "a.ts", read := ReadResult.err ("boom"), write := WriteResult.ok }).1
      = false ∧
    (∀ p cc, Event.writeF p cc ∉
      (fix_imports_in_file
        { path := "a.ts", read := ReadResult.err ("boom"), write := WriteResult.ok }).2) :=
  c8_read_failure_no_write
    { path := "a.ts", read := ReadResult.err ("boom"), write := WriteResult.ok } "boom" rfl

/-- C10: the fixed count never exceeds the number of discovered files,
and the run reports exactly that count. -/
theorem c10_fixed_count_le (files : List FileModel) :
    (processFiles files).1 ≤ files.length ∧
    Event.msg ("Fixed imports in " ++ toString (processFiles files).1 ++ " files")
      ∈ FixImports.main true files := by
  constructor
  · induction files with
    | nil => simp [processFiles]
    | cons f fs ih =>
      by_cases hb : (fix_imports_in_file f).1 = true <;>
        simp [processFiles, hb] <;> omega
  · simp [FixImports.main]

/-- C2: with a successful read, a write is attempted if and only if the
rewritten content differs from what was read; and if no position of the
content matches either rule, the content is unchanged and no write
occurs. -/
theorem c2_write_iff_changed (f : FileModel) (c : List Char)
    (hr : f.read = ReadResult.ok c) :
    ((∃ cc, Event.writeF f.path cc ∈ (fix_imports_in_file f).2) ↔ rewrite c ≠ c) ∧
    ((∀ t ∈ c.tails, matchPat1 t = none ∧ matchPat2 t = none) →
      rewrite c = c ∧ ∀ p cc, Event.writeF p cc ∉ (fix_imports_in_file f).2) := by
  by_cases hch : rewrite c = c
  · rw [fix_trace_unchanged hr hch]
    constructor
    · constructor
      · rintro ⟨cc, hcc⟩
        simp at hcc
      · intro hne
        exact absurd hch hne
    · intro _
      refine ⟨hch, ?_⟩
      intro p cc hmem
      simp at hmem
  · constructor
    · constructor
      · intro _
        exact hch
      · intro _
        cases hwv : f.write with
        | ok =>
          rw [fix_trace_changed_ok hr hch hwv]
          exact ⟨rewrite c, by simp⟩
        | err e =>
          rw [fix_trace_changed_err hr hch hwv]
          exact ⟨rewrite c, by simp⟩
    · intro hno
      exfalso
      apply hch
      unfold rewrite
      rw [sub1_id_of_no_match (fun t ht => (hno t ht).1)]
      exact sub2_id_of_no_match (fun t ht => (hno t ht).2)

/-- C2 witness: a file whose content matches no rule. -/
theorem c2_witness :
    ((∃ cc, Event.writeF "a.ts" cc ∈
        (fix_imports_in_file
          { path := "a.ts", read := ReadResult.ok ("hello".data),
            write := WriteResult.ok }).2)
      ↔ rewrite ("hello".data) ≠ "hello".data) ∧
    ((∀ t ∈ ("hello".data).tails, matchPat1 t = none ∧ matchPat2 t = none) →
      rewrite ("hello".data) = "hello".data ∧
      ∀ p cc, Event.writeF p cc ∉
        (fix_imports_in_file
          { path := "a.ts", read := ReadResult.ok ("hello".data),
            write := WriteResult.ok }).2) :=
  c2_write_iff_changed
    { path := "a.ts", read := ReadResult.ok ("hello".data), write := WriteResult.ok }
    ("hello".data) rfl

/-- C6: a per-file read or write failure is contained: the file reports
`False`, the error line naming the file and the error is emitted, the
file contributes zero to the fixed count, and all other files are
processed exactly as without it. -/
theorem c6_per_file_failure (xs ys : List FileModel) (f : FileModel) (e : String)
    (h : f.read = ReadResult.err e ∨
      ∃ c, f.read = ReadResult.ok c ∧ rewrite c ≠ c ∧ f.write = WriteResult.err e) :
    (fix_imports_in_file f).1 = false ∧
    Event.msg ("Error processing " ++ f.path ++ ": " ++ e) ∈ (fix_imports_in_file f).2 ∧
    processFiles (xs ++ f :: ys) =
      ((processFiles xs).1 + (processFiles ys).1,
        (processFiles xs).2 ++ ((fix_imports_in_file f).2 ++ (processFiles ys).2)) := by
  have hf1 : (fix_imports_in_file f).1 = false := by
    rcases h with hre | ⟨c, hrc, hch, hw⟩
    · rw [fix_trace_read_err hre]
    · rw [fix_trace_changed_err hrc hch hw]
  have hf2 : Event.msg ("Error processing " ++ f.path ++ ": " ++ e)
      ∈ (fix_imports_in_file f).2 := by
    rcases h with hre | ⟨c, hrc, hch, hw⟩
    · rw [fix_trace_read_err hre]; simp
    · rw [fix_trace_changed_err hrc hch hw]; simp
  refine ⟨hf1, hf2, ?_⟩
  rw [processFiles_append]
  have hy : processFiles (f :: ys) =
      ((processFiles ys).1, (fix_imports_in_file f).2 ++ (processFiles ys).2) := by
    simp [processFiles, hf1]
  rw [hy]

/-- C6 witness: a single unreadable file. -/
theorem c6_witness :
    (fix_imports_in_file
        { path := "a.ts", read := ReadResult.err ("boom"), write := WriteResult.ok }).1
      = false ∧
    Event.msg ("Error processing " ++ "a.ts" ++ ": " ++ "boom") ∈
      (fix_imports_in_file
        { path := "a.ts", read := ReadResult.err ("boom"), write := WriteResult.ok }).2 ∧
    processFiles ([] ++
        { path := "a.ts", read := ReadResult.err ("boom"), write := WriteResult.ok } :: []) =
      ((processFiles []).1 + (processFiles []).1,
        (processFiles []).2 ++
          ((fix_imports_in_file
            { path := "a.ts", read := ReadResult.err ("boom"),
              write := WriteResult.ok }).2 ++
            (processFiles []).2)) :=
  c6_per_file_failure [] []
    { path := "a.ts", read := ReadResult.err ("boom"), write := WriteResult.ok }
    "boom" (Or.inl rfl)

/-- C5: a quoted module path whose value does not end in `.js` is left
completely unchanged by the rewriter. -/
theorem c5_no_false_match (v : List Char) (q q' : Char)
    (hq : isQuote q = true) (hq' : isQuote q' = true)
    (hv : ∀ c ∈ v, isQuote c = false)
    (hsuf : ¬ ['.', 'j', 's'] <:+ v) :
    rewrite ("from ".data ++ q :: (v ++ [q'])) = "from ".data ++ q :: (v ++ [q']) := by
  apply rewrite_id_of_no_window
  have hshape : "from ".data ++ q :: (v ++ [q'])
      = ('f' :: 'r' :: 'o' :: 'm' :: ' ' :: [q]) ++ (v ++ [q']) := rfl
  rw [hshape]
  apply hasJsQuote_append
  · intro t ht hne
    simp only [List.tails_cons, List.mem_cons] at ht
    rcases ht with rfl | rfl | rfl | rfl | rfl | rfl | htn
    · exact windowAt_false_of_head (by decide)
    · exact windowAt_false_of_head (by decide)
    · exact windowAt_false_of_head (by decide)
    · exact windowAt_false_of_head (by decide)
    · exact windowAt_false_of_head (by decide)
    · rcases isQuote_cases hq with rfl | rfl
      · exact windowAt_false_of_head (by decide)
      · exact windowAt_false_of_head (by decide)
    · have ht0 : t = [] := by simpa [List.tails] using htn
      exact absurd ht0 hne
  · exact hasJsQuote_val_quote q' hv hsuf

/-- C5 witness: the spec's `from './js-utils'` example. -/
theorem c5_witness :
    rewrite ("from ".data ++ '\'' :: ("./js-utils".data ++ ['\''])) =
      "from ".data ++ '\'' :: ("./js-utils".data ++ ['\'']) :=
  c5_no_false_match ("./js-utils".data) '\'' '\'' (by decide) (by decide) (by decide)
    (by decide)

/-- C4 counterexample: when the literal's remaining value still ends in
`.js` (a doubled suffix), the rewriter strips twice — rule 1 removes one
`.js` and rule 2, running on rule 1's output, removes another — so the
output is not the input with one `.js` suffix stripped. -/
theorem c4_counterexample :
    rewrite ("import \x7b A \x7d from 'a.js.js'".data) = "import \x7b A \x7d from 'a'".data ∧
    rewrite ("import \x7b A \x7d from 'a.js.js'".data) ≠ "import \x7b A \x7d from 'a.js'".data := by
  constructor
  · decide
  · decide

/-- C4 amended: a named/default import statement — `import`, a clause
containing no quote and no other `from` occurrence, a space, `from`, a
space, and a quoted literal ending in `.js` — is rewritten to the same
clause with the `.js` stripped and the literal re-quoted with single
quotes, provided the remaining value does not itself end in `.js`. -/
theorem c4_amended (clause g : List Char) (q q' : Char)
    (hq : isQuote q = true) (hq' : isQuote q' = true)
    (hclause : ∀ c ∈ clause, isQuote c = false)
    (hg : ∀ c ∈ g, isQuote c = false)
    (hgjs : ¬ ['.', 'j', 's'] <:+ g)
    (hnofrom : ∀ t ∈ ("import ".data ++ clause ++ [' ']).tails, t ≠ [] →
      (t ++ ('f' :: 'r' :: 'o' :: 'm' :: ' ' :: q :: (g ++ ('.' :: 'j' :: 's' :: [q'])))).take 4
        ≠ ['f', 'r', 'o', 'm']) :
    rewrite (("import ".data ++ clause ++ [' ']) ++
        ('f' :: 'r' :: 'o' :: 'm' :: ' ' :: q :: (g ++ ('.' :: 'j' :: 's' :: [q'])))) =
      ("import ".data ++ clause ++ [' ']) ++
        ('f' :: 'r' :: 'o' :: 'm' :: ' ' :: '\'' :: (g ++ ['\''])) := by
  have hscan : ∀ t ∈ ("import ".data ++ clause ++ [' ']).tails, t ≠ [] →
      matchPat1 (t ++ ('f' :: 'r' :: 'o' :: 'm' :: ' ' :: q ::
        (g ++ ('.' :: 'j' :: 's' :: [q'])))) = none := by
    intro t ht hne
    cases hmt : matchPat1 (t ++ ('f' :: 'r' :: 'o' :: 'm' :: ' ' :: q ::
        (g ++ ('.' :: 'j' :: 's' :: [q'])))) with
    | none => rfl
    | some x =>
      obtain ⟨rest, heq⟩ := matchPat1_from_head hmt
      have htake : (t ++ ('f' :: 'r' :: 'o' :: 'm' :: ' ' :: q ::
          (g ++ ('.' :: 'j' :: 's' :: [q'])))).take 4 = ['f', 'r', 'o', 'm'] := by
        rw [heq]; rfl
      exact absurd htake (hnofrom t ht hne)
  have hm1 : matchPat1 ('f' :: 'r' :: 'o' :: 'm' :: ' ' :: q ::
      (g ++ ('.' :: 'j' :: 's' :: [q']))) = some (g, []) := by
    have hone := @matchPat1_from [' '] g q q'
      (by simp) (by intro c hc; simp at hc; subst hc; rfl) hq hq' hg
    simpa using hone
  have hstep1 : sub1 (("import ".data ++ clause ++ [' ']) ++
      ('f' :: 'r' :: 'o' :: 'm' :: ' ' :: q :: (g ++ ('.' :: 'j' :: 's' :: [q'])))) =
      ("import ".data ++ clause ++ [' ']) ++ ("from '".data ++ g ++ ['\'']) := by
    rw [sub1_copy hscan, sub1_match hm1]
    rfl
  unfold rewrite
  rw [hstep1]
  have hshape : ("import ".data ++ clause ++ [' ']) ++ ("from '".data ++ g ++ ['\'']) =
      (("import ".data ++ clause ++ [' ']) ++ ['f', 'r', 'o', 'm', ' ']) ++
        ('\'' :: (g ++ ['\''])) := by
    simp [List.append_assoc]
  rw [hshape]
  have hid : sub2 ((("import ".data ++ clause ++ [' ']) ++ ['f', 'r', 'o', 'm', ' ']) ++
      ('\'' :: (g ++ ['\'']))) =
      (("import ".data ++ clause ++ [' ']) ++ ['f', 'r', 'o', 'm', ' ']) ++
        ('\'' :: (g ++ ['\''])) := by
    apply sub2_id_of_no_window
    apply hasJsQuote_append
    · intro t ht hne
      have htu : t <:+ (("import ".data ++ clause ++ [' ']) ++ ['f', 'r', 'o', 'm', ' ']) :=
        (List.mem_tails _ _).mp ht
      by_cases hlen : t.length ≤ 3
      · have hE : (['o', 'm', ' '] : List Char) <:+
            (("import ".data ++ clause ++ [' ']) ++ ['f', 'r', 'o', 'm', ' ']) := by
          refine ⟨("import ".data ++ clause ++ [' ']) ++ ['f', 'r'], ?_⟩
          simp [List.append_assoc]
        have htE : t <:+ (['o', 'm', ' '] : List Char) :=
          suffix_suffix_of_le htu hE (by simpa using hlen)
        have hmem := (List.mem_tails _ _).mpr htE
        simp only [List.tails_cons, List.mem_cons] at hmem
        rcases hmem with rfl | rfl | rfl | hnil
        · exact windowAt_false_of_head (by decide)
        · exact windowAt_false_of_head (by decide)
        · exact windowAt_false_of_head (by decide)
        · have ht0 : t = [] := by simpa [List.tails] using hnil
          exact absurd ht0 hne
      · have huq : ∀ c ∈ (("import ".data ++ clause ++ [' ']) ++ ['f', 'r', 'o', 'm', ' ']),
            isQuote c = false := by
          intro c hc
          rcases List.mem_append.mp hc with hc1 | hc2
          · rcases List.mem_append.mp hc1 with hc3 | hc4
            · rcases List.mem_append.mp hc3 with hc5 | hc6
              · have him : ∀ c ∈ ("import ".data : List Char), isQuote c = false := by
                  decide
                exact him c hc5
              · exact hclause c hc6
            · have hc7 : c = ' ' := by simpa using hc4
              subst hc7; rfl
          · have hf : ∀ c ∈ (['f', 'r', 'o', 'm', ' '] : List Char), isQuote c = false := by
              decide
            exact hf c hc2
        rcases t with _ | ⟨a, _ | ⟨b, _ | ⟨c0, _ | ⟨d, t'⟩⟩⟩⟩
        · exact absurd rfl hne
        · simp at hlen
        · simp at hlen
        · simp at hlen
        · have hd : d ∈ (("import ".data ++ clause ++ [' ']) ++ ['f', 'r', 'o', 'm', ' ']) :=
            htu.sublist.subset (by simp)
          have hdq : isQuote d = false := huq d hd
          rw [List.cons_append, List.cons_append, List.cons_append, List.cons_append]
          exact windowAt_false_of_fourth hdq
    · have hw : ('\'' :: (g ++ ['\''])) = ['\''] ++ (g ++ ['\'']) := rfl
      rw [hw]
      apply hasJsQuote_append
      · intro t ht hne
        simp only [List.tails_cons, List.mem_cons] at ht
        rcases ht with rfl | htn
        · exact windowAt_false_of_head (by decide)
        · have ht0 : t = [] := by simpa [List.tails] using htn
          exact absurd ht0 hne
      · exact hasJsQuote_val_quote '\'' hg hgjs
  rw [hid]
  simp [List.append_assoc]

/-- C4 witness: the spec's `import { A, B } from "../bar.js"` example. -/
theorem c4_witness :
    rewrite (("import ".data ++ "\x7b A, B \x7d".data ++ [' ']) ++
        ('f' :: 'r' :: 'o' :: 'm' :: ' ' :: '"' ::
          ("../bar".data ++ ('.' :: 'j' :: 's' :: ['"'])))) =
      ("import ".data ++ "\x7b A, B \x7d".data ++ [' ']) ++
        ('f' :: 'r' :: 'o' :: 'm' :: ' ' :: '\'' :: ("../bar".data ++ ['\''])) :=
  c4_amended ("\x7b A, B \x7d".data) ("../bar".data) '"' '"' (by decide) (by decide)
    (by decide) (by decide) (by decide) (by decide)

